import Mathlib

/-!
Shallow embedding of the `geta` crate (src/body.rs, src/encoding.rs,
src/etag.rs, src/service.rs): a service holding one in-memory payload
snapshot, serving it over an HTTP-like interface with ETag-based
conditional requests and content-encoding negotiation.

Bytes are modelled as `Nat` (values below 256 where it matters), byte
strings as `List Nat`.  A `bytes::Buf` value is modelled as its list of
chunks (`List (List Nat)`); `Buf::has_remaining` is "some byte remains",
and the chunk-walking loops of the source become folds over the chunk
list.  The `http::HeaderMap` is modelled as an ordered association list;
`HeaderMap::insert` replaces all values of the name, while the response
builder's `.header` appends.
-/

namespace Geta

/-- ASCII bytes of a string literal (all header names and wire names in the
source are ASCII). -/
def strBytes (s : String) : List Nat :=
  s.data.map Char.toNat

/-- A `bytes::Buf` payload, as its sequence of chunks. -/
abbrev BufT := List (List Nat)

/-- Source `Buf::has_remaining`: the total readable length is nonzero. -/
def hasRemaining (b : BufT) : Bool :=
  ! b.flatten.isEmpty

/-- Header map: ordered list of (lowercase name, raw value bytes). -/
abbrev HeaderMap := List (String × List Nat)

/-- Source `HeaderMap::insert`: drop every value of the name, then add the new one. -/
def insertHeader (hm : HeaderMap) (n : String) (v : List Nat) : HeaderMap :=
  hm.filter (fun p => p.1 ≠ n) ++ [(n, v)]

/-- Source `HeaderMap::remove`: drop every value of the name. -/
def removeHeader (hm : HeaderMap) (n : String) : HeaderMap :=
  hm.filter (fun p => p.1 ≠ n)

/-- Source `HeaderMap::get`: first value of the name, if any. -/
def getHeader (hm : HeaderMap) (n : String) : Option (List Nat) :=
  (hm.find? (fun p => p.1 = n)).map (fun p => p.2)

/-- Source `slice::windows(k)`: all contiguous length-`k` subslices (none when the
slice is shorter than `k`; the source never calls this with `k = 0`). -/
def windows (k : Nat) (xs : List Nat) : List (List Nat) :=
  (List.range (xs.length + 1 - k)).map (fun i => (xs.drop i).take k)

/-- The raw substring scan shared by `Encoding::is_contained_in` and
`ETag::matches`: some window of `target` equals `pat`. -/
def containsSub (pat target : List Nat) : Bool :=
  (windows pat.length target).any (fun w => w = pat)

/-- Source `enum Encoding` (src/encoding.rs). -/
inductive Encoding
  | Identity
  | Br
  | Gzip
  | Deflate
deriving DecidableEq, Repr

/-- Source `Encoding::as_str`. -/
def Encoding.as_str : Encoding → String
  | .Identity => "identity"
  | .Br => "br"
  | .Gzip => "gzip"
  | .Deflate => "deflate"

/-- Source `Encoding::as_bytes`. -/
def Encoding.as_bytes (e : Encoding) : List Nat :=
  strBytes e.as_str

/-- Source `Encoding::is_contained_in`: windows-based substring scan of the wire
name over the header bytes. -/
def Encoding.is_contained_in (e : Encoding) (target : List Nat) : Bool :=
  containsSub e.as_bytes target

/-! ### SHA-256

Model of the external `ring::digest::SHA256` used by `ETag::from`
(src/etag.rs), implemented from FIPS 180-4 over `Nat` with explicit
reduction modulo `2 ^ 32`.  A hasher `Context` is modelled by the bytes
fed to it so far: `Context::update` appends, `Context::finish` hashes. -/

namespace Sha256

/-- 32-bit wraparound addition. -/
def add32 (a b : Nat) : Nat := (a + b) % 4294967296

/-- 32-bit right rotation. -/
def rotr32 (x n : Nat) : Nat := ((x >>> n) ||| (x <<< (32 - n))) % 4294967296

/-- 32-bit bitwise complement. -/
def not32 (x : Nat) : Nat := x ^^^ 4294967295

def ch (x y z : Nat) : Nat := (x &&& y) ^^^ (not32 x &&& z)

def maj (x y z : Nat) : Nat := ((x &&& y) ^^^ (x &&& z)) ^^^ (y &&& z)

def bigSigma0 (x : Nat) : Nat := (rotr32 x 2 ^^^ rotr32 x 13) ^^^ rotr32 x 22

def bigSigma1 (x : Nat) : Nat := (rotr32 x 6 ^^^ rotr32 x 11) ^^^ rotr32 x 25

def smallSigma0 (x : Nat) : Nat := (rotr32 x 7 ^^^ rotr32 x 18) ^^^ (x >>> 3)

def smallSigma1 (x : Nat) : Nat := (rotr32 x 17 ^^^ rotr32 x 19) ^^^ (x >>> 10)

/-- The 64 round constants (decimal renderings of the FIPS 180-4 words). -/
def K : List Nat :=
  [1116352408, 1899447441, 3049323471, 3921009573,
   961987163, 1508970993, 2453635748, 2870763221,
   3624381080, 310598401, 607225278, 1426881987,
   1925078388, 2162078206, 2614888103, 3248222580,
   3835390401, 4022224774, 264347078, 604807628,
   770255983, 1249150122, 1555081692, 1996064986,
   2554220882, 2821834349, 2952996808, 3210313671,
   3336571891, 3584528711, 113926993, 338241895,
   666307205, 773529912, 1294757372, 1396182291,
   1695183700, 1986661051, 2177026350, 2456956037,
   2730485921, 2820302411, 3259730800, 3345764771,
   3516065817, 3600352804, 4094571909, 275423344,
   430227734, 506948616, 659060556, 883997877,
   958139571, 1322822218, 1537002063, 1747873779,
   1955562222, 2024104815, 2227730452, 2361852424,
   2428436474, 2756734187, 3204031479, 3329325298]

/-- Big-endian byte rendering of a value, `n` bytes wide. -/
def toBE : Nat → Nat → List Nat
  | 0, _ => []
  | n + 1, v => toBE n (v / 256) ++ [v % 256]

/-- Group bytes four at a time into big-endian 32-bit words. -/
def bytesToWords : List Nat → List Nat
  | a :: b :: c :: d :: rest => (((a * 256 + b) * 256 + c) * 256 + d) :: bytesToWords rest
  | _ => []

/-- Next word of the message schedule, from the words built so far. -/
def nextW (w : List Nat) : Nat :=
  add32 (add32 (smallSigma1 (w.getD (w.length - 2) 0)) (w.getD (w.length - 7) 0))
    (add32 (smallSigma0 (w.getD (w.length - 15) 0)) (w.getD (w.length - 16) 0))

/-- Extend the message schedule by `n` more words. -/
def extendW : Nat → List Nat → List Nat
  | 0, w => w
  | n + 1, w => extendW n (w ++ [nextW w])

/-- The eight 32-bit working variables. -/
structure H8 where
  a : Nat
  b : Nat
  c : Nat
  d : Nat
  e : Nat
  f : Nat
  g : Nat
  h : Nat
deriving DecidableEq, Repr

/-- Initial hash value (decimal renderings of the FIPS 180-4 words). -/
def H0 : H8 :=
  ⟨1779033703, 3144134277, 1013904242, 2773480762,
   1359893119, 2600822924, 528734635, 1541459225⟩

/-- One compression round with constant `k` and schedule word `w`. -/
def round (s : H8) (k w : Nat) : H8 :=
  let t1 := add32 s.h (add32 (bigSigma1 s.e) (add32 (ch s.e s.f s.g) (add32 k w)))
  let t2 := add32 (bigSigma0 s.a) (maj s.a s.b s.c)
  ⟨add32 t1 t2, s.a, s.b, s.c, add32 s.d t1, s.e, s.f, s.g⟩

/-- Compress one 16-word block into the running hash. -/
def compressBlock (s : H8) (block : List Nat) : H8 :=
  let ws := extendW 48 block
  let t := (K.zip ws).foldl (fun st kw => round st kw.1 kw.2) s
  ⟨add32 s.a t.a, add32 s.b t.b, add32 s.c t.c, add32 s.d t.d,
   add32 s.e t.e, add32 s.f t.f, add32 s.g t.g, add32 s.h t.h⟩

/-- Split a byte sequence into 64-byte blocks (fuel-driven; the fuel is the
length, which bounds the number of blocks). -/
def blocksGo : Nat → List Nat → List (List Nat)
  | 0, _ => []
  | _, [] => []
  | fuel + 1, x :: rest => ((x :: rest).take 64) :: blocksGo fuel ((x :: rest).drop 64)

/-- Split a byte sequence into 64-byte blocks. -/
def blocks (xs : List Nat) : List (List Nat) :=
  blocksGo xs.length xs

/-- FIPS 180-4 padding: `0x80`, zeros to 56 mod 64, 8-byte big-endian bit
length. -/
def pad (msg : List Nat) : List Nat :=
  msg ++ [0x80] ++ List.replicate ((56 + 64 - (msg.length + 1) % 64) % 64) 0
    ++ toBE 8 (8 * msg.length)

/-- SHA-256 digest (32 bytes) of a byte sequence. -/
def sha256 (msg : List Nat) : List Nat :=
  let final := (blocks (pad msg)).foldl (fun s b => compressBlock s (bytesToWords b)) H0
  toBE 4 final.a ++ toBE 4 final.b ++ toBE 4 final.c ++ toBE 4 final.d
    ++ toBE 4 final.e ++ toBE 4 final.f ++ toBE 4 final.g ++ toBE 4 final.h

end Sha256

/-! ### ETag (src/etag.rs) -/

/-- Lowercase hex digit of a value below 16 (`0x30`-based for 0–9,
`0x57`-based for a–f, as produced by Rust's `{byte:02x}` formatting). -/
def hexDigit (n : Nat) : Nat :=
  if n < 10 then 48 + n else 87 + n

/-- Two lowercase hex digits of one byte. -/
def hexByte (b : Nat) : List Nat :=
  [hexDigit (b / 16), hexDigit (b % 16)]

/-- Lowercase hex encoding, two digits per byte, no separators. -/
def hexEncode (bs : List Nat) : List Nat :=
  (bs.map hexByte).flatten

/-- Source `ETag::empty`: the reserved literal of two quote characters. -/
def ETag.emptyTag : List Nat := [34, 34]

/-- Source `ETag::new`: hex-encode the digest and wrap it in quote characters. -/
def ETag.new (digest : List Nat) : List Nat :=
  34 :: (hexEncode digest ++ [34])

/-- Source `impl From<T: Buf> for ETag`: stream each chunk through the hasher
context (the while-loop of src/etag.rs, as a fold over the chunks),
finish, and frame the digest. -/
def ETag.fromBuf (buf : BufT) : List Nat :=
  let ctx := buf.foldl (fun acc chunk => acc ++ chunk) []
  ETag.new (Sha256.sha256 ctx)

/-- Source `ETag::matches`: the tag's bytes occur as some window of the
If-None-Match header bytes. -/
def ETag.matches (etag ifNoneMatch : List Nat) : Bool :=
  containsSub etag ifNoneMatch

/-! ### Body (src/body.rs) and the decoder workers (src/service.rs)

The worker loop of `spawn_br_decoder` / `spawn_gzip_decoder` /
`spawn_deflate_decoder` reads up to 512 bytes at a time from a streaming
decompressor, stops at the first zero-byte read, and otherwise pushes the
`n` bytes read onto a capacity-1 channel.  The decompressors themselves
are external (`brotli_decompressor`, `flate2`); each is modelled as a
function from the buffer's bytes to its decoded output bytes, and the
receiver by the pair (channel capacity, chunk sequence the worker pushes
before dropping the sender). -/

/-- The worker loop over the remaining decoded bytes: each blocking read
returns `min 512 remaining` bytes, and a zero-byte read ends the loop
(fuel-driven; the length bounds the number of reads). -/
def readChunksGo : Nat → List Nat → List (List Nat)
  | 0, _ => []
  | _, [] => []
  | fuel + 1, x :: rest => ((x :: rest).take 512) :: readChunksGo fuel ((x :: rest).drop 512)

/-- All chunks the decode loop pushes for a given decoded byte stream. -/
def readChunks (decoded : List Nat) : List (List Nat) :=
  readChunksGo decoded.length decoded

/-- The receiving half handed back by a `spawn_*_decoder`: the channel
capacity it was created with, and the chunks the worker will deliver. -/
structure Receiver where
  capacity : Nat
  chunks : List (List Nat)
deriving DecidableEq, Repr

/-- External decompressors (brotli, gzip, deflate), each taken as the
function from compressed input bytes to decoded output bytes. -/
structure Decoders where
  br : List Nat → List Nat
  gz : List Nat → List Nat
  df : List Nat → List Nat

/-- Source `spawn_br_decoder`: capacity-1 channel; the worker decompresses the
buffer's bytes and pushes chunks of at most 512 bytes. -/
def spawn_br_decoder (br : List Nat → List Nat) (body : BufT) : Receiver :=
  ⟨1, readChunks (br body.flatten)⟩

/-- Source `spawn_gzip_decoder`. -/
def spawn_gzip_decoder (gz : List Nat → List Nat) (body : BufT) : Receiver :=
  ⟨1, readChunks (gz body.flatten)⟩

/-- Source `spawn_deflate_decoder`. -/
def spawn_deflate_decoder (df : List Nat → List Nat) (body : BufT) : Receiver :=
  ⟨1, readChunks (df body.flatten)⟩

/-- Valid runs of the worker loop, read sizes left free: from `rem`
decoded bytes still to come, each iteration's read returns some
`0 < n ≤ min 512 rem.length` and pushes those `n` bytes; a zero-byte read
occurs exactly when no decoded bytes remain, and the loop then stops and
drops the sender. -/
inductive DecodeTrace : List Nat → List (List Nat) → Prop
  | done : DecodeTrace [] []
  | step (rem : List Nat) (n : Nat) (rest : List (List Nat)) :
      0 < n → n ≤ 512 → n ≤ rem.length →
      DecodeTrace (rem.drop n) rest →
      DecodeTrace rem (rem.take n :: rest)

/-- Source `type Error = Infallible` of the `http_body::Body` impl: uninhabited. -/
inductive BodyError : Type

/-- Source `enum BodyChunk` (src/body.rs). -/
inductive BodyChunk
  | Buf (inner : BufT)
  | Bytes (inner : List Nat)
deriving DecidableEq, Repr

/-- Source `http_body::Frame::data`. -/
inductive Frame
  | data (chunk : BodyChunk)
deriving DecidableEq, Repr

/-- Source `enum Body` (src/body.rs): the `Option` slots are the "already taken"
flags of the `Buf` and `Bytes` variants; `Stream` holds the channel
receiver. -/
inductive Body
  | Empty
  | Buf (inner : Option BufT)
  | Bytes (inner : Option (List Nat))
  | Stream (rx : Receiver)
deriving DecidableEq, Repr

/-- Source `impl From<Bytes> for Body`. -/
def Body.fromBytes (b : List Nat) : Body :=
  .Bytes (some b)

/-- Source `Body::from_static`. -/
def Body.from_static (b : List Nat) : Body :=
  Body.fromBytes b

/-- Source `impl From<mpsc::Receiver<Bytes>> for Body`. -/
def Body.fromReceiver (rx : Receiver) : Body :=
  .Stream rx

/-- Source `Body::poll_frame`, as a pure step: the ready poll result (`none` =
stream complete) and the body's next state.  `Poll::Pending` has no pure
counterpart; the `Stream` receiver is modelled by the chunks it will
deliver before the sender is dropped, so an empty receiver answers
`Ready(None)`. -/
def Body.poll_frame : Body → Option (Except BodyError Frame) × Body
  | .Empty => (none, .Empty)
  | .Buf none => (none, .Buf none)
  | .Buf (some b) => (some (.ok (.data (.Buf b))), .Buf none)
  | .Bytes none => (none, .Bytes none)
  | .Bytes (some b) => (some (.ok (.data (.Bytes b))), .Bytes none)
  | .Stream ⟨cap, []⟩ => (none, .Stream ⟨cap, []⟩)
  | .Stream ⟨cap, c :: rest⟩ => (some (.ok (.data (.Bytes c))), .Stream ⟨cap, rest⟩)

/-- Results of `n` successive `poll_frame` calls. -/
def Body.pulls : Body → Nat → List (Option (Except BodyError Frame))
  | _, 0 => []
  | b, n + 1 =>
    let st := b.poll_frame
    st.1 :: st.2.pulls n

/-- How many of a poll-result sequence are real chunks. -/
def countChunks (rs : List (Option (Except BodyError Frame))) : Nat :=
  (rs.filter (fun r => r.isSome)).length

/-! ### Service (src/service.rs) -/

/-- Source `enum Inner`: the snapshot slot. -/
inductive Inner
  | Empty
  | Filled (etag : List Nat) (body : BufT)
deriving DecidableEq, Repr

/-- Source `struct Service`: the owner-configured header map, the configured
encoding, and the current snapshot (the `RwLock<Arc<_>>` read under the
lock, modelled by its current value). -/
structure Service where
  headers : HeaderMap
  encoding : Encoding
  buf : Inner

/-- Source `impl Default for Service`. -/
def Service.default : Service :=
  ⟨[], .Identity, .Empty⟩

/-- Source `Service::set_encoding`: records the encoding and inserts a
content-encoding header with its wire name. -/
def Service.set_encoding (s : Service) (e : Encoding) : Service :=
  { s with
    encoding := e
    headers := insertHeader s.headers "content-encoding" e.as_bytes }

/-- The ETag computed by `Service::fill` for a buffer. -/
def fillEtag (body : BufT) : List Nat :=
  if hasRemaining body then ETag.fromBuf body else ETag.emptyTag

/-- Source `Service::fill`: swap in a new filled snapshot with its ETag. -/
def Service.fill (s : Service) (body : BufT) : Service :=
  { s with buf := .Filled (fillEtag body) body }

/-- Request methods: `GET`, `HEAD`, or anything else. -/
inductive Method
  | GET
  | HEAD
  | Other (name : String)
deriving DecidableEq, Repr

/-- An incoming request: method and headers. -/
structure Request where
  method : Method
  headers : HeaderMap

/-- An outgoing response: status, headers, body. -/
structure Response where
  status : Nat
  headers : HeaderMap
  body : Body
deriving DecidableEq, Repr

/-- Source `fn no_content`. -/
def no_content : Response :=
  ⟨204, [], .Empty⟩

/-- Source `fn not_modified`. -/
def not_modified : Response :=
  ⟨304, [], .Empty⟩

/-- Source `fn method_not_allowed`. -/
def method_not_allowed : Response :=
  ⟨405, [], Body.from_static (strBytes "Method not allowed")⟩

/-- Source `Service::call`: method gate, snapshot read, conditional match,
header assembly (configured headers in order, then the ETag header),
HEAD short-circuit, empty-buffer gate, and the encoding decision. -/
def Service.call (D : Decoders) (s : Service) (req : Request) : Response :=
  let head? : Option Bool :=
    match req.method with
    | .GET => some false
    | .HEAD => some true
    | .Other _ => none
  match head? with
  | none => method_not_allowed
  | some head =>
    match s.buf with
    | .Empty => no_content
    | .Filled etag body =>
      let inmMatch :=
        match getHeader req.headers "if-none-match" with
        | some v => ETag.matches etag v
        | none => false
      if inmMatch then not_modified
      else
        let resHeaders := s.headers ++ [("etag", etag)]
        if head then ⟨200, resHeaders, .Empty⟩
        else if hasRemaining body then
          match getHeader req.headers "accept-encoding" with
          | some ae =>
            match s.encoding with
            | .Identity => ⟨200, resHeaders, .Buf (some body)⟩
            | .Br =>
              if Encoding.Br.is_contained_in ae then
                ⟨200, resHeaders, .Buf (some body)⟩
              else
                ⟨200, removeHeader resHeaders "content-encoding",
                  Body.fromReceiver (spawn_br_decoder D.br body)⟩
            | .Gzip =>
              if Encoding.Gzip.is_contained_in ae then
                ⟨200, resHeaders, .Buf (some body)⟩
              else
                ⟨200, removeHeader resHeaders "content-encoding",
                  Body.fromReceiver (spawn_gzip_decoder D.gz body)⟩
            | .Deflate =>
              if Encoding.Deflate.is_contained_in ae then
                ⟨200, resHeaders, .Buf (some body)⟩
              else
                ⟨200, removeHeader resHeaders "content-encoding",
                  Body.fromReceiver (spawn_deflate_decoder D.df body)⟩
          | none => ⟨200, resHeaders, .Buf (some body)⟩
        else
          ⟨200, removeHeader resHeaders "content-encoding", .Empty⟩

/-- Concrete decoder instantiation used for witnesses: each external
decompressor taken as the identity map on bytes. -/
def idDecoders : Decoders :=
  ⟨id, id, id⟩

/-! ### Helper lemmas -/

theorem foldl_append_eq_flatten (l : List (List Nat)) (acc : List Nat) :
    l.foldl (fun a c => a ++ c) acc = acc ++ l.flatten := by
  induction l generalizing acc with
  | nil => simp
  | cons x xs ih => simp [List.foldl_cons, ih, List.append_assoc]

theorem toBE_length (n v : Nat) : (Sha256.toBE n v).length = n := by
  induction n generalizing v with
  | zero => rfl
  | succ m ih => simp [Sha256.toBE, ih]

theorem toBE_mem_lt (n v : Nat) : ∀ x ∈ Sha256.toBE n v, x < 256 := by
  induction n generalizing v with
  | zero => simp [Sha256.toBE]
  | succ m ih =>
    intro x hx
    simp only [Sha256.toBE, List.mem_append, List.mem_singleton] at hx
    rcases hx with hx | rfl
    · exact ih (v / 256) x hx
    · exact Nat.mod_lt v (by omega)

theorem sha256_length (msg : List Nat) : (Sha256.sha256 msg).length = 32 := by
  simp [Sha256.sha256, toBE_length]

theorem sha256_mem_lt (msg : List Nat) : ∀ x ∈ Sha256.sha256 msg, x < 256 := by
  intro x hx
  simp only [Sha256.sha256, List.mem_append] at hx
  rcases hx with ((((((hx | hx) | hx) | hx) | hx) | hx) | hx) | hx <;>
    exact toBE_mem_lt 4 _ x hx

theorem hexEncode_length (bs : List Nat) : (hexEncode bs).length = 2 * bs.length := by
  induction bs with
  | nil => rfl
  | cons b rest ih => simp [hexEncode, hexByte] at ih ⊢; omega

theorem hexDigit_range (n : Nat) (h : n < 16) :
    (48 ≤ hexDigit n ∧ hexDigit n ≤ 57) ∨ (97 ≤ hexDigit n ∧ hexDigit n ≤ 102) := by
  unfold hexDigit
  split <;> omega

theorem hexEncode_mem (bs : List Nat) (hb : ∀ b ∈ bs, b < 256) :
    ∀ c ∈ hexEncode bs, (48 ≤ c ∧ c ≤ 57) ∨ (97 ≤ c ∧ c ≤ 102) := by
  intro c hc
  simp only [hexEncode, List.mem_flatten, List.mem_map] at hc
  obtain ⟨l, ⟨b, hbmem, rfl⟩, hcl⟩ := hc
  have hblt : b < 256 := hb b hbmem
  simp only [hexByte, List.mem_cons, List.not_mem_nil, or_false] at hcl
  rcases hcl with rfl | rfl
  · exact hexDigit_range _ (by omega)
  · exact hexDigit_range _ (Nat.mod_lt b (by omega))

/-- The chunk-at-a-time hashing of `ETag::from` equals hashing the full
byte sequence of the buffer. -/
theorem ETag.fromBuf_eq (buf : BufT) :
    ETag.fromBuf buf = ETag.new (Sha256.sha256 buf.flatten) := by
  simp [ETag.fromBuf, foldl_append_eq_flatten]

theorem fillEtag_ne_nil (b : BufT) : fillEtag b ≠ [] := by
  unfold fillEtag
  split
  · simp [ETag.fromBuf_eq, ETag.new]
  · simp [ETag.emptyTag]

/-- A window equality scan is exactly contiguous-substring containment
(for nonempty patterns; the source never scans with an empty one). -/
theorem containsSub_iff_substring (pat target : List Nat) (hpat : pat ≠ []) :
    containsSub pat target = true ↔ pat <:+: target := by
  unfold containsSub windows
  rw [List.any_eq_true]
  constructor
  · rintro ⟨w, hw, hwp⟩
    rw [List.mem_map] at hw
    obtain ⟨i, hi, rfl⟩ := hw
    have hweq : (target.drop i).take pat.length = pat := of_decide_eq_true hwp
    refine ⟨target.take i, (target.drop i).drop pat.length, ?_⟩
    have hmid : pat ++ (target.drop i).drop pat.length = target.drop i := by
      conv_rhs => rw [← List.take_append_drop pat.length (target.drop i)]
      rw [hweq]
    rw [List.append_assoc, hmid, List.take_append_drop]
  · rintro ⟨s, u, hsu⟩
    refine ⟨pat, ?_, by simp⟩
    rw [List.mem_map]
    refine ⟨s.length, ?_, ?_⟩
    · rw [List.mem_range]
      have : target.length = s.length + pat.length + u.length := by
        rw [← hsu]; simp; omega
      have hp1 : 1 ≤ pat.length := by
        rcases pat with _ | _
        · exact absurd rfl hpat
        · simp
      omega
    · rw [← hsu, List.append_assoc, List.drop_left, List.take_left]

theorem readChunksGo_trace (fuel : Nat) :
    ∀ xs : List Nat, xs.length ≤ fuel → DecodeTrace xs (readChunksGo fuel xs) := by
  induction fuel with
  | zero =>
    intro xs hxs
    have : xs = [] := List.eq_nil_of_length_eq_zero (Nat.le_zero.mp hxs)
    subst this
    exact DecodeTrace.done
  | succ fuel ih =>
    intro xs hxs
    rcases xs with _ | ⟨x, rest⟩
    · exact DecodeTrace.done
    · show DecodeTrace (x :: rest) (((x :: rest).take 512) :: readChunksGo fuel ((x :: rest).drop 512))
      by_cases hle : (x :: rest).length ≤ 512
      · have htake : (x :: rest).take 512 = (x :: rest) := List.take_of_length_le hle
        have hdrop : (x :: rest).drop 512 = [] := List.drop_eq_nil_of_le hle
        have htake2 : (x :: rest).take ((x :: rest).length) = (x :: rest) := List.take_length _
        rw [htake, hdrop]
        have := DecodeTrace.step (x :: rest) (x :: rest).length (readChunksGo fuel [])
          (by simp) hle (le_refl _)
        rw [List.drop_length, htake2] at this
        exact this (by show DecodeTrace [] (readChunksGo fuel []); cases fuel <;> exact .done)
      · have hlen : ((x :: rest).drop 512).length ≤ fuel := by
          simp only [List.length_drop]
          simp only [List.length_cons] at hxs ⊢
          omega
        exact DecodeTrace.step (x :: rest) 512 _ (by omega) (le_refl _) (by omega)
          (ih _ hlen)

theorem decodeTrace_readChunks (xs : List Nat) : DecodeTrace xs (readChunks xs) :=
  readChunksGo_trace xs.length xs (le_refl _)

theorem decodeTrace_props {rem : List Nat} {chunks : List (List Nat)}
    (h : DecodeTrace rem chunks) :
    chunks.flatten = rem ∧ ∀ c ∈ chunks, c ≠ [] ∧ c.length ≤ 512 := by
  induction h with
  | done => simp
  | step rem n rest hn h512 hlen htr ih =>
    refine ⟨?_, ?_⟩
    · simp only [List.flatten_cons, ih.1, List.take_append_drop]
    · intro c hc
      rcases List.mem_cons.mp hc with rfl | hmem
      · refine ⟨?_, ?_⟩
        · intro hnil
          have := congrArg List.length hnil
          simp only [List.length_take, List.length_nil] at this
          omega
        · simp only [List.length_take]
          omega
      · exact ih.2 c hmem

theorem poll_done_absorbing (b b' : Body) (h : Body.poll_frame b = (none, b')) :
    Body.poll_frame b' = (none, b') := by
  rcases b with _ | inner | inner | ⟨cap, chunks⟩
  · simp only [Body.poll_frame, Prod.mk.injEq] at h
    rw [← h.2]; rfl
  · rcases inner with _ | b0 <;> simp only [Body.poll_frame, Prod.mk.injEq] at h
    · rw [← h.2]; rfl
    · exact absurd h.1 (by simp)
  · rcases inner with _ | b0 <;> simp only [Body.poll_frame, Prod.mk.injEq] at h
    · rw [← h.2]; rfl
    · exact absurd h.1 (by simp)
  · rcases chunks with _ | ⟨c, rest⟩ <;> simp only [Body.poll_frame, Prod.mk.injEq] at h
    · rw [← h.2]; rfl
    · exact absurd h.1 (by simp)

theorem countChunks_cons_some (r : Except BodyError Frame)
    (rs : List (Option (Except BodyError Frame))) :
    countChunks (some r :: rs) = countChunks rs + 1 := by
  simp [countChunks]

theorem countChunks_cons_none (rs : List (Option (Except BodyError Frame))) :
    countChunks (none :: rs) = countChunks rs := by
  simp [countChunks]

theorem countChunks_pulls_buf_none (n : Nat) :
    countChunks (Body.pulls (.Buf none) n) = 0 := by
  induction n with
  | zero => rfl
  | succ m ih => simp only [Body.pulls, Body.poll_frame, countChunks, List.filter] at ih ⊢; exact ih

theorem countChunks_pulls_bytes_none (n : Nat) :
    countChunks (Body.pulls (.Bytes none) n) = 0 := by
  induction n with
  | zero => rfl
  | succ m ih => simp only [Body.pulls, Body.poll_frame, countChunks, List.filter] at ih ⊢; exact ih

theorem getHeader_insertHeader (hm : HeaderMap) (n : String) (v : List Nat) :
    getHeader (insertHeader hm n v) n = some v := by
  unfold getHeader insertHeader
  rw [List.find?_append]
  have hnone : (hm.filter (fun p => p.1 ≠ n)).find? (fun p => p.1 = n) = none := by
    rw [List.find?_eq_none]
    intro x hx
    have := (List.mem_filter.mp hx).2
    simp at this ⊢
    exact this
  rw [hnone]
  simp [List.find?]

theorem getHeader_removeHeader (hm : HeaderMap) (n : String) :
    getHeader (removeHeader hm n) n = none := by
  unfold getHeader removeHeader
  have hnone : (hm.filter (fun p => p.1 ≠ n)).find? (fun p => p.1 = n) = none := by
    rw [List.find?_eq_none]
    intro x hx
    have := (List.mem_filter.mp hx).2
    simp at this ⊢
    exact this
  rw [hnone]
  rfl

/-! ### Claim theorems -/

/-- C9: a request whose method is neither GET nor HEAD is answered with a
normal 405 whose body is exactly the bytes of "Method not allowed" and no
extra headers, and the response does not depend on the store state (the
snapshot is not consulted). -/
theorem claim9_method_gate (D : Decoders) (s : Service) (req : Request) (name : String)
    (hm : req.method = .Other name) :
    Service.call D s req = ⟨405, [], Body.Bytes (some (strBytes "Method not allowed"))⟩ ∧
    ∀ s2 : Service, Service.call D s req = Service.call D s2 req := by
  constructor
  · unfold Service.call
    rw [hm]
    rfl
  · intro s2
    unfold Service.call
    rw [hm]

theorem claim9_witness :
    (⟨Method.Other "POST", []⟩ : Request).method = Method.Other "POST" ∧
    Service.call idDecoders Service.default ⟨Method.Other "POST", []⟩ =
      ⟨405, [], Body.Bytes (some (strBytes "Method not allowed"))⟩ :=
  ⟨rfl, (claim9_method_gate idDecoders Service.default ⟨Method.Other "POST", []⟩ "POST" rfl).1⟩

/-- C3: on a filled snapshot, a GET or HEAD request whose If-None-Match
header bytes contain the snapshot's ETag as a contiguous window is
answered 304 Not Modified with an empty body and no headers at all. -/
theorem claim3_conditional_match (D : Decoders) (s : Service) (etag : List Nat)
    (body : BufT) (req : Request) (v : List Nat)
    (hbuf : s.buf = .Filled etag body)
    (hm : req.method = .GET ∨ req.method = .HEAD)
    (hv : getHeader req.headers "if-none-match" = some v)
    (hmatch : ETag.matches etag v = true) :
    Service.call D s req = ⟨304, [], Body.Empty⟩ := by
  unfold Service.call
  rcases hm with hm | hm <;> rw [hm, hbuf, hv] <;> simp [hmatch, not_modified]

theorem claim3_witness :
    (Service.default.fill [[]]).buf = .Filled (fillEtag [[]]) [[]] ∧
    getHeader [("if-none-match", [34, 34])] "if-none-match" = some [34, 34] ∧
    ETag.matches (fillEtag [[]]) [34, 34] = true ∧
    Service.call idDecoders (Service.default.fill [[]])
        ⟨.GET, [("if-none-match", [34, 34])]⟩ = ⟨304, [], Body.Empty⟩ :=
  ⟨rfl, by decide, by decide,
    claim3_conditional_match idDecoders (Service.default.fill [[]]) (fillEtag [[]]) [[]]
      ⟨.GET, [("if-none-match", [34, 34])]⟩ [34, 34] rfl (Or.inl rfl) (by decide) (by decide)⟩

/-- C5: the `matches` containment check is true exactly when the token's
byte sequence occurs as a contiguous substring of the header bytes (for
the nonempty tokens the service actually produces); in particular this
holds for every token computed by `fill`. -/
theorem claim5_matches_iff_substring (tok hdr : List Nat) (htok : tok ≠ []) :
    (ETag.matches tok hdr = true ↔ tok <:+: hdr) ∧
    ∀ B : BufT, (ETag.matches (fillEtag B) hdr = true ↔ fillEtag B <:+: hdr) := by
  constructor
  · exact containsSub_iff_substring tok hdr htok
  · intro B
    exact containsSub_iff_substring _ hdr (fillEtag_ne_nil B)

theorem claim5_witness :
    ([34, 34] : List Nat) ≠ [] ∧
    (ETag.matches [34, 34] [1, 34, 34, 7] = true ↔ [34, 34] <:+: ([1, 34, 34, 7] : List Nat)) :=
  ⟨by decide, (claim5_matches_iff_substring [34, 34] [1, 34, 34, 7] (by decide)).1⟩

/-- C7: each spawned decoder worker uses a channel of capacity exactly 1;
every run of its decode loop stops exactly at the first zero-byte read
(which happens exactly when the decoded stream is exhausted, whereupon
the sender is dropped), pushes only nonempty chunks of at most 512 bytes,
and altogether delivers exactly the decoded bytes; the deterministic
chunk stream of each spawned receiver is such a run. -/
theorem claim7_decoder_loop :
    (∀ (f : List Nat → List Nat) (b : BufT),
      (spawn_br_decoder f b).capacity = 1 ∧ (spawn_gzip_decoder f b).capacity = 1 ∧
        (spawn_deflate_decoder f b).capacity = 1) ∧
    (∀ (rem : List Nat) (chunks : List (List Nat)), DecodeTrace rem chunks →
      chunks.flatten = rem ∧ ∀ c ∈ chunks, c ≠ [] ∧ c.length ≤ 512) ∧
    (∀ (f : List Nat → List Nat) (b : BufT),
      DecodeTrace (f b.flatten) (spawn_br_decoder f b).chunks ∧
        DecodeTrace (f b.flatten) (spawn_gzip_decoder f b).chunks ∧
        DecodeTrace (f b.flatten) (spawn_deflate_decoder f b).chunks) := by
  refine ⟨fun f b => ⟨rfl, rfl, rfl⟩, fun rem chunks h => decodeTrace_props h,
    fun f b => ⟨?_, ?_, ?_⟩⟩ <;> exact decodeTrace_readChunks _

theorem claim7_witness :
    DecodeTrace [1, 2] [[1, 2]] ∧ ([[1, 2]] : List (List Nat)).flatten = [1, 2] := by
  have tr : DecodeTrace [1, 2] [[1, 2]] := by
    have h := DecodeTrace.step [1, 2] 2 [] (by omega) (by omega) (by simp) DecodeTrace.done
    simpa using h
  exact ⟨tr, (claim7_decoder_loop.2.1 [1, 2] [[1, 2]] tr).1⟩

/-- C8: `poll_frame` is safe to call again after completion — a completed
body answers "done" again from the same state — and the `Buf` and `Bytes`
variants produce at most one real chunk over any sequence of polls, the
`Option` slot acting as the already-taken flag. -/
theorem claim8_pull_contract :
    (∀ b b' : Body, Body.poll_frame b = (none, b') → Body.poll_frame b' = (none, b')) ∧
    (∀ (inner : Option BufT) (n : Nat), countChunks (Body.pulls (.Buf inner) n) ≤ 1) ∧
    (∀ (inner : Option (List Nat)) (n : Nat), countChunks (Body.pulls (.Bytes inner) n) ≤ 1) := by
  refine ⟨poll_done_absorbing, ?_, ?_⟩
  · intro inner n
    rcases inner with _ | b0
    · rw [countChunks_pulls_buf_none]
      omega
    · rcases n with _ | m
      · exact Nat.zero_le 1
      · show countChunks (some (.ok (.data (.Buf b0))) :: Body.pulls (.Buf none) m) ≤ 1
        rw [countChunks_cons_some, countChunks_pulls_buf_none]
  · intro inner n
    rcases inner with _ | b0
    · rw [countChunks_pulls_bytes_none]
      omega
    · rcases n with _ | m
      · exact Nat.zero_le 1
      · show countChunks (some (.ok (.data (.Bytes b0))) :: Body.pulls (.Bytes none) m) ≤ 1
        rw [countChunks_cons_some, countChunks_pulls_bytes_none]

theorem claim8_witness :
    Body.poll_frame .Empty = (none, .Empty) ∧
    Body.poll_frame .Empty = (none, .Empty) ∧
    countChunks (Body.pulls (.Buf (some [[1]])) 3) ≤ 1 :=
  ⟨rfl, claim8_pull_contract.1 .Empty .Empty rfl, claim8_pull_contract.2.1 (some [[1]]) 3⟩

/-- C10: the body's error type (`Infallible`) is uninhabited, and every
poll result that carries a value is an `Ok` frame — a body can only
deliver chunks or complete, never surface an error. -/
theorem claim10_infallible :
    (∀ e : BodyError, False) ∧
    (∀ (b : Body) (r : Except BodyError Frame) (b' : Body),
      Body.poll_frame b = (some r, b') → ∃ f, r = Except.ok f) := by
  constructor
  · exact fun e => nomatch e
  · intro b r b' h
    rcases b with _ | inner | inner | ⟨cap, chunks⟩
    · simp [Body.poll_frame] at h
    · rcases inner with _ | b0 <;> simp [Body.poll_frame, Prod.mk.injEq] at h
      exact ⟨_, h.1.symm⟩
    · rcases inner with _ | b0 <;> simp [Body.poll_frame, Prod.mk.injEq] at h
      exact ⟨_, h.1.symm⟩
    · rcases chunks with _ | ⟨c, rest⟩ <;> simp [Body.poll_frame, Prod.mk.injEq] at h
      exact ⟨_, h.1.symm⟩

theorem claim10_witness :
    Body.poll_frame (.Bytes (some [1])) =
      (some (.ok (.data (.Bytes [1]))), .Bytes none) ∧
    ∃ f, (Except.ok (Frame.data (BodyChunk.Bytes [1])) : Except BodyError Frame) = Except.ok f :=
  ⟨rfl, claim10_infallible.2 (.Bytes (some [1])) _ (.Bytes none) rfl⟩

/-- C4: the identity token computed at `fill` is a pure function of the
buffer's bytes: the two-quote literal for an empty buffer, and otherwise
the SHA-256 digest of the full byte sequence (the chunk-at-a-time
streaming hash equals the one-shot hash), hex-encoded lowercase with two
digits per byte and no separators, wrapped in a quote pair; recomputing
over the same bytes yields the same token. -/
theorem claim4_identity_token (b : BufT) :
    (∀ s : Service, (s.fill b).buf = .Filled (fillEtag b) b) ∧
    (hasRemaining b = false → fillEtag b = ETag.emptyTag) ∧
    (hasRemaining b = true →
      fillEtag b = 34 :: (hexEncode (Sha256.sha256 b.flatten) ++ [34]) ∧
      (Sha256.sha256 b.flatten).length = 32 ∧
      (hexEncode (Sha256.sha256 b.flatten)).length = 64 ∧
      ∀ c ∈ hexEncode (Sha256.sha256 b.flatten),
        (48 ≤ c ∧ c ≤ 57) ∨ (97 ≤ c ∧ c ≤ 102)) ∧
    (∀ b2 : BufT, b.flatten = b2.flatten → fillEtag b = fillEtag b2) := by
  refine ⟨fun s => rfl, ?_, ?_, ?_⟩
  · intro h
    unfold fillEtag
    rw [h]
    rfl
  · intro h
    refine ⟨?_, sha256_length _, ?_, hexEncode_mem _ (sha256_mem_lt _)⟩
    · unfold fillEtag
      rw [h]
      simp [ETag.fromBuf_eq, ETag.new]
    · rw [hexEncode_length, sha256_length]
  · intro b2 hflat
    simp only [fillEtag, hasRemaining, ETag.fromBuf_eq, hflat]

theorem claim4_witness :
    hasRemaining [[97]] = true ∧
    fillEtag [[97]] = 34 :: (hexEncode (Sha256.sha256 [97]) ++ [34]) ∧
    (Sha256.sha256 ([97] : List Nat)).length = 32 := by
  have h := (claim4_identity_token [[97]]).2.2.1 (by decide)
  exact ⟨by decide, h.1, h.2.1⟩

/-- C6: after filling a buffer with zero readable bytes, any GET that does
not hit the conditional-match short-circuit yields 200 with an empty
body, no content-encoding header (a configured one is stripped), and an
ETag header holding the two-quote empty-identity literal, whatever the
configured encoding. -/
theorem claim6_empty_buffer_get (D : Decoders) (s : Service) (B : BufT) (req : Request)
    (hempty : hasRemaining B = false)
    (hget : req.method = .GET)
    (hinm : ∀ v, getHeader req.headers "if-none-match" = some v →
      ETag.matches (fillEtag B) v = false) :
    (Service.call D (s.fill B) req).status = 200 ∧
    (Service.call D (s.fill B) req).body = Body.Empty ∧
    getHeader (Service.call D (s.fill B) req).headers "content-encoding" = none ∧
    ("etag", ETag.emptyTag) ∈ (Service.call D (s.fill B) req).headers ∧
    fillEtag B = ETag.emptyTag := by
  have htag : fillEtag B = ETag.emptyTag := by
    unfold fillEtag
    rw [hempty]
    rfl
  have hcall : Service.call D (s.fill B) req =
      ⟨200, removeHeader (s.headers ++ [("etag", fillEtag B)]) "content-encoding", .Empty⟩ := by
    unfold Service.call
    rw [hget]
    cases hv : getHeader req.headers "if-none-match" with
    | none => simp [Service.fill, hv, hempty]
    | some v => simp [Service.fill, hv, hinm v hv, hempty]
  rw [hcall]
  refine ⟨rfl, rfl, getHeader_removeHeader _ _, ?_, htag⟩
  rw [← htag]
  unfold removeHeader
  rw [List.mem_filter]
  exact ⟨List.mem_append_right _ (List.mem_singleton.mpr rfl),
    (by decide : decide ("etag" ≠ "content-encoding") = true)⟩

theorem claim6_witness :
    hasRemaining ([[], []] : BufT) = false ∧
    ((Service.call idDecoders ((Service.default.set_encoding .Gzip).fill [[], []])
        ⟨.GET, []⟩).status = 200 ∧
      (Service.call idDecoders ((Service.default.set_encoding .Gzip).fill [[], []])
        ⟨.GET, []⟩).body = Body.Empty ∧
      getHeader (Service.call idDecoders ((Service.default.set_encoding .Gzip).fill [[], []])
        ⟨.GET, []⟩).headers "content-encoding" = none ∧
      ("etag", ETag.emptyTag) ∈ (Service.call idDecoders
        ((Service.default.set_encoding .Gzip).fill [[], []]) ⟨.GET, []⟩).headers ∧
      fillEtag [[], []] = ETag.emptyTag) :=
  ⟨by decide,
    claim6_empty_buffer_get idDecoders (Service.default.set_encoding .Gzip) [[], []]
      ⟨.GET, []⟩ (by decide) rfl (fun v hv => by simp [getHeader] at hv)⟩

/-- Every header pair on any response either was configured on the
service (owner extras or the set_encoding insertion) or is the appended
ETag header. -/
theorem call_headers_sub (D : Decoders) (s : Service) (req : Request) :
    ∀ p ∈ (Service.call D s req).headers, p ∈ s.headers ∨ p.1 = "etag" := by
  intro p hp
  simp only [Service.call] at hp
  repeat' split at hp
  all_goals
    simp only [method_not_allowed, no_content, not_modified, removeHeader,
      List.mem_filter, List.mem_append, List.mem_singleton, List.mem_nil_iff] at hp
  all_goals
    rcases hp with hp | rfl
  all_goals
    first
    | exact Or.inl hp
    | exact Or.inr rfl

/-- C2 counterexample: with the configured encoding set to Identity via
`set_encoding`, a HEAD response on a filled snapshot carries a
content-encoding header with value `identity`, inserted by the
encoding-configuration call itself (the owner header map started empty). -/
theorem claim2_counterexample :
    (Service.default.set_encoding .Identity).encoding = Encoding.Identity ∧
    Service.default.headers = [] ∧
    (Service.call idDecoders ((Service.default.set_encoding .Identity).fill [[]])
        ⟨.HEAD, []⟩).headers =
      [("content-encoding", strBytes "identity"), ("etag", ETag.emptyTag)] := by
  refine ⟨rfl, rfl, ?_⟩
  decide

/-- C2 amended: `set_encoding` always inserts a content-encoding header
carrying the encoding's wire name — `identity` included, so configuring
Identity does set the header; what holds is that every content-encoding
header appearing on a response is present in the service's configured
header map (the call itself only appends the ETag header). -/
theorem claim2_amended :
    (∀ (s : Service) (e : Encoding),
      getHeader (s.set_encoding e).headers "content-encoding" = some e.as_bytes ∧
      (s.set_encoding e).encoding = e) ∧
    (∀ (D : Decoders) (s : Service) (req : Request) (v : List Nat),
      ("content-encoding", v) ∈ (Service.call D s req).headers →
      ("content-encoding", v) ∈ s.headers) := by
  constructor
  · intro s e
    exact ⟨getHeader_insertHeader s.headers "content-encoding" e.as_bytes, rfl⟩
  · intro D s req v hv
    rcases call_headers_sub D s req _ hv with h | h
    · exact h
    · exact absurd h (by decide : ¬("content-encoding" = "etag"))

theorem claim2_witness :
    ("content-encoding", strBytes "identity") ∈
      (Service.call idDecoders ((Service.default.set_encoding .Identity).fill [[]])
        ⟨.HEAD, []⟩).headers ∧
    ("content-encoding", strBytes "identity") ∈
      ((Service.default.set_encoding .Identity).fill [[]]).headers :=
  ⟨by decide,
    claim2_amended.2 idDecoders ((Service.default.set_encoding .Identity).fill [[]])
      ⟨.HEAD, []⟩ (strBytes "identity") (by decide)⟩

/-- C1: on a GET of a filled snapshot with a non-empty buffer (and no
conditional hit): with no Accept-Encoding header the stored buffer is
served verbatim as a `Buf` body and the headers (configured
content-encoding included) are kept as assembled; with an Accept-Encoding
header, if the configured encoding is Identity or its wire name occurs in
the header bytes the buffer is likewise served verbatim with headers
kept; otherwise the content-encoding header is removed and the body is a
`Stream` fed by the decoder spawned for the configured encoding over a
clone of the buffer. -/
theorem claim1_encoding_decision (D : Decoders) (s : Service) (etag : List Nat)
    (body : BufT) (req : Request)
    (hbuf : s.buf = .Filled etag body)
    (hget : req.method = .GET)
    (hinm : ∀ v, getHeader req.headers "if-none-match" = some v →
      ETag.matches etag v = false)
    (hrem : hasRemaining body = true) :
    (getHeader req.headers "accept-encoding" = none →
      Service.call D s req =
        ⟨200, s.headers ++ [("etag", etag)], Body.Buf (some body)⟩) ∧
    (∀ ae, getHeader req.headers "accept-encoding" = some ae →
      ((s.encoding = .Identity ∨ s.encoding.is_contained_in ae = true) →
        Service.call D s req =
          ⟨200, s.headers ++ [("etag", etag)], Body.Buf (some body)⟩) ∧
      (s.encoding = .Br → Encoding.Br.is_contained_in ae = false →
        Service.call D s req =
          ⟨200, removeHeader (s.headers ++ [("etag", etag)]) "content-encoding",
            Body.Stream (spawn_br_decoder D.br body)⟩) ∧
      (s.encoding = .Gzip → Encoding.Gzip.is_contained_in ae = false →
        Service.call D s req =
          ⟨200, removeHeader (s.headers ++ [("etag", etag)]) "content-encoding",
            Body.Stream (spawn_gzip_decoder D.gz body)⟩) ∧
      (s.encoding = .Deflate → Encoding.Deflate.is_contained_in ae = false →
        Service.call D s req =
          ⟨200, removeHeader (s.headers ++ [("etag", etag)]) "content-encoding",
            Body.Stream (spawn_deflate_decoder D.df body)⟩)) := by
  have hred : ∀ v, getHeader req.headers "if-none-match" = some v →
      ETag.matches etag v = false := hinm
  constructor
  · intro hae
    unfold Service.call
    rw [hget, hbuf]
    cases hv : getHeader req.headers "if-none-match" with
    | none => simp [hv, hrem, hae]
    | some v => simp [hv, hred v hv, hrem, hae]
  · intro ae hae
    refine ⟨?_, ?_, ?_, ?_⟩
    · rintro (hid | hcont)
      · unfold Service.call
        rw [hget, hbuf]
        cases hv : getHeader req.headers "if-none-match" with
        | none => simp [hv, hrem, hae, hid]
        | some v => simp [hv, hred v hv, hrem, hae, hid]
      · unfold Service.call
        rw [hget, hbuf]
        cases henc : s.encoding <;> rw [henc] at hcont <;>
          cases hv : getHeader req.headers "if-none-match" with
          | none => simp [hv, hrem, hae, hcont]
          | some v => simp [hv, hred v hv, hrem, hae, hcont]
    · intro henc hcont
      unfold Service.call
      rw [hget, hbuf]
      cases hv : getHeader req.headers "if-none-match" with
      | none => simp [hv, hrem, hae, henc, hcont, Body.fromReceiver]
      | some v => simp [hv, hred v hv, hrem, hae, henc, hcont, Body.fromReceiver]
    · intro henc hcont
      unfold Service.call
      rw [hget, hbuf]
      cases hv : getHeader req.headers "if-none-match" with
      | none => simp [hv, hrem, hae, henc, hcont, Body.fromReceiver]
      | some v => simp [hv, hred v hv, hrem, hae, henc, hcont, Body.fromReceiver]
    · intro henc hcont
      unfold Service.call
      rw [hget, hbuf]
      cases hv : getHeader req.headers "if-none-match" with
      | none => simp [hv, hrem, hae, henc, hcont, Body.fromReceiver]
      | some v => simp [hv, hred v hv, hrem, hae, henc, hcont, Body.fromReceiver]

theorem claim1_witness :
    ((Service.default.set_encoding .Br).fill [[9]]).buf = .Filled (fillEtag [[9]]) [[9]] ∧
    hasRemaining [[9]] = true ∧
    getHeader ([] : HeaderMap) "accept-encoding" = none ∧
    Service.call idDecoders ((Service.default.set_encoding .Br).fill [[9]]) ⟨.GET, []⟩ =
      ⟨200,
        ((Service.default.set_encoding .Br).fill [[9]]).headers ++ [("etag", fillEtag [[9]])],
        Body.Buf (some [[9]])⟩ :=
  ⟨rfl, by decide, rfl,
    (claim1_encoding_decision idDecoders ((Service.default.set_encoding .Br).fill [[9]])
      (fillEtag [[9]]) [[9]] ⟨.GET, []⟩ rfl rfl
      (fun v hv => by simp [getHeader] at hv) (by decide)).1 rfl⟩

end Geta
